import Mathlib

/-!
# Verification of the `@tstsx/object-diff` structural diff engine

Shallow embedding of `packages/vanilla/object-diff/src/objectDiff.ts`.

JavaScript values are modelled with an explicit heap so that reference
identity and cyclic object graphs are expressible: a `Value` is either a
primitive or a reference (`Value.ref`) into a `Heap`, a list of objects
indexed by position, each object being its ordered list of own enumerable
string-keyed fields.  JS strict equality `===` is `jsEq`, which differs
from structural equality only at `NaN`.  The recursive `traverse` closure
of the source is modelled with a fuel parameter (structural recursion, so
the kernel can evaluate it); `diffFuel` is proved sufficient, so the
`fuelOut` outcome is unreachable for the fuel `objectDiff` passes.
-/

namespace ObjectDiff

/-- JS primitive values (plus `null`, which `typeof` calls an object but
which the source's line-57 test treats like a primitive).  Numbers are
modelled as integers plus a distinguished `nan`, since the only operation
the source performs on them is `===`. -/
inductive Prim where
  | undef
  | null
  | boolV (b : Bool)
  | num (n : Int)
  | nan
  | str (s : String)
  | func (id : Nat)
  | sym (id : Nat)
deriving DecidableEq, Repr

/-- A JS value: a primitive, or a reference to a heap object.  Functions
and symbols are primitives here because `typeof` does not classify them as
`'object'`, which is the only classification the source consults. -/
inductive Value where
  | prim (p : Prim)
  | ref (a : Nat)
deriving DecidableEq, Repr

/-- A heap object: ordered own enumerable fields. -/
abbrev Obj := List (String × Value)

/-- The heap: objects addressed by list position. -/
abbrev Heap := List Obj

/-- JS strict equality `===`: structural on this model except `NaN === NaN`
is false. -/
def jsEq : Value → Value → Bool
  | .prim .nan, .prim .nan => false
  | v, w => v = w

/-- `typeof` as the source uses it. -/
def typeofValue : Value → String
  | .prim .undef => "undefined"
  | .prim .null => "object"
  | .prim (.boolV _) => "boolean"
  | .prim (.num _) => "number"
  | .prim .nan => "number"
  | .prim (.str _) => "string"
  | .prim (.func _) => "function"
  | .prim (.sym _) => "symbol"
  | .ref _ => "object"

/-- JS `obj[key]` on own fields: `undefined` when the key is missing. -/
def objGet : Obj → String → Value
  | [], _ => .prim .undef
  | (k', v) :: rest, k => if k = k' then v else objGet rest k

/-- JS `key in obj` on own fields. -/
def hasKey : Obj → String → Bool
  | [], _ => false
  | (k', _) :: rest, k => if k = k' then true else hasKey rest k

/-- The object stored at address `a`; an out-of-range reference dereferences
to the empty object (it has no own keys). -/
def heapObj (h : Heap) (a : Nat) : Obj := h.getD a []

/-- Source `Object.keys`: field names in insertion order. -/
def objKeys (obj : Obj) : List String := obj.map Prod.fst

/-- JS `[...new Set(list)]`: first occurrences, in order. -/
def dedupAux : List String → List String → List String
  | [], _ => []
  | k :: ks, seen => if k ∈ seen then dedupAux ks seen else k :: dedupAux ks (k :: seen)

def dedupFirst (l : List String) : List String := dedupAux l []

/-- The `circularRefs` policy. -/
inductive CircularPolicy where
  | ignore
  | mark
  | error
deriving DecidableEq, Repr

/-- Source `DiffOptions`, with the source's defaults.  `maxDepth = none` is the
default `Number.POSITIVE_INFINITY`; `some d` is a finite (possibly
negative) numeric `maxDepth`. -/
structure DiffOptions where
  ignorePaths : List String := []
  ignoreTypes : List String := []
  compareWith : List (String × (Value → Value → Bool)) := []
  circularRefs : CircularPolicy := .mark
  maxDepth : Option Int := none

/-- The `Diff` record union. -/
inductive Diff where
  | added (path : List String) (value : Value)
  | deleted (path : List String) (value : Value)
  | updated (path : List String) (oldValue newValue : Value)
deriving DecidableEq, Repr

def Diff.path : Diff → List String
  | .added p _ => p
  | .deleted p _ => p
  | .updated p _ _ => p

/-- The sentinel `'[Circular]'` string the `mark` policy pushes. -/
def circularSentinel : Value := .prim (.str "[Circular]")

/-- Whether a record has the exact shape of the `mark` policy's sentinel
record (an `updated` whose two values are the `'[Circular]'` string). -/
def Diff.isCircMark : Diff → Bool
  | .updated _ o n => o = circularSentinel && n = circularSentinel
  | _ => false

/-- Source `path.join('.')`. -/
def joinDot (path : List String) : String := String.intercalate "." path

/-- Source `shouldIgnorePath` (lines 43–45). -/
def shouldIgnorePath (o : DiffOptions) (path : List String) : Bool :=
  o.ignorePaths.any fun ip => joinDot path = ip || (joinDot path).startsWith (ip ++ ".")

/-- Source `shouldIgnoreType` (lines 47–50). -/
def shouldIgnoreType (o : DiffOptions) (v : Value) : Bool :=
  o.ignoreTypes.contains (typeofValue v)

/-- Source `compareWith[pathStr]?.(left, right)` (lines 71–74): false when no
comparator is registered for the dotted path. -/
def checkCW (o : DiffOptions) (pathStr : String) (l r : Value) : Bool :=
  match o.compareWith.lookup pathStr with
  | some f => f l r
  | none => false

/-- Source `depth > maxDepth` (line 54); always false against the default
`Number.POSITIVE_INFINITY`. -/
def depthExceeded (o : DiffOptions) (depth : Nat) : Bool :=
  match o.maxDepth with
  | none => false
  | some d => (depth : Int) > d

/-- The message of the error thrown on a cycle under `circularRefs: 'error'`
(source line 79). -/
def circularMsg (path : List String) : String :=
  "Circular reference detected at path: " ++ joinDot path

/-- The mutable state the source's `traverse` closure reads and writes: the
`visited` WeakSet (as the addresses added to it) and the `diffs` output
array. -/
structure St where
  visited : List Nat
  diffs : List Diff
deriving DecidableEq, Repr

/-- Source `diffs.push(d)`. -/
def pushD (st : St) (d : Diff) : St := { st with diffs := st.diffs ++ [d] }

/-- Outcome of running `traverse`: normal return with the final state, a
thrown error, or fuel exhaustion (proved unreachable for the fuel
`objectDiff` supplies). -/
inductive TResult where
  | ok (st : St)
  | err (msg : String)
  | fuelOut
deriving DecidableEq, Repr

/-- One iteration of the `for (const key of allKeys)` loop (source lines
101–119), parametrised by `rec`, the recursive call for keys present on
both sides.  A non-`ok` accumulator passes through: in the source a thrown
error aborts the loop. -/
def keyStep (o : DiffOptions) (lObj rObj : Obj) (path : List String)
    (rec : Value → Value → List String → St → TResult)
    (acc : TResult) (k : String) : TResult :=
  match acc with
  | .ok st =>
    if !hasKey rObj k then
      .ok (if !shouldIgnorePath o (path ++ [k]) && !shouldIgnoreType o (objGet lObj k) then
        pushD st (.deleted (path ++ [k]) (objGet lObj k)) else st)
    else if !hasKey lObj k then
      .ok (if !shouldIgnorePath o (path ++ [k]) && !shouldIgnoreType o (objGet rObj k) then
        pushD st (.added (path ++ [k]) (objGet rObj k)) else st)
    else
      rec (objGet lObj k) (objGet rObj k) (path ++ [k]) st
  | e => e

/-- The source's recursive `traverse` (lines 52–120), with fuel making the
recursion structural.  Branches appear in source order: depth check,
primitive/composite split (both sides must be non-null objects to descend),
custom comparator, cycle check against `visited`, then the key-union loop. -/
def traverse (o : DiffOptions) (h : Heap) :
    Nat → Value → Value → List String → Nat → St → TResult
  | 0, _, _, _, _, _ => .fuelOut
  | fuel + 1, l, r, path, depth, st =>
    if depthExceeded o depth then .ok st
    else
      match l, r with
      | .ref la, .ref ra =>
        if checkCW o (joinDot path) l r then .ok st
        else if la ∈ st.visited || ra ∈ st.visited then
          match o.circularRefs with
          | .error => .err (circularMsg path)
          | .mark => .ok (pushD st (.updated path circularSentinel circularSentinel))
          | .ignore => .ok st
        else
          (dedupFirst (objKeys (heapObj h la) ++ objKeys (heapObj h ra))).foldl
            (keyStep o (heapObj h la) (heapObj h ra) path
              (fun lv rv newPath st' => traverse o h fuel lv rv newPath (depth + 1) st'))
            (.ok { st with visited := st.visited ++ [la, ra] })
      | _, _ =>
        if !jsEq l r && !shouldIgnorePath o path then
          if jsEq r (.prim .undef) && !jsEq l (.prim .undef) then
            .ok (pushD st (.deleted path l))
          else if jsEq l (.prim .undef) && !jsEq r (.prim .undef) then
            .ok (pushD st (.added path r))
          else
            .ok (pushD st (.updated path l r))
        else .ok st

/-- Fuel sufficient for any traversal over `h` starting from an empty
visited set (proved below: every level of recursion that proceeds marks a
fresh in-range address visited). -/
def diffFuel (h : Heap) : Nat := h.length + 1

/-- Source `objectDiff` (lines 29–124). -/
def objectDiff (h : Heap) (l r : Value) (o : DiffOptions) : TResult :=
  if jsEq l r then .ok ⟨[], []⟩
  else traverse o h (diffFuel h) l r [] 0 ⟨[], []⟩

/-- The returned diff list, when the call returns normally. -/
def diffList : TResult → Option (List Diff)
  | .ok st => some st.diffs
  | _ => none

/-- The pair of values the traversal passes at a relative path below a
starting pair, following only keys present (own, enumerable) on both sides
— the situation in which the source recurses. -/
def resolvePair (h : Heap) : Value → Value → List String → Option (Value × Value)
  | l, r, [] => some (l, r)
  | .ref la, .ref ra, k :: ks =>
    if hasKey (heapObj h la) k && hasKey (heapObj h ra) k then
      resolvePair h (objGet (heapObj h la) k) (objGet (heapObj h ra) k) ks
    else none
  | _, _, _ :: _ => none

/-- How many in-range heap addresses are not yet visited: the measure that
shrinks each time the traversal descends into a pair of unvisited objects. -/
def freeCount (h : Heap) (v : List Nat) : Nat :=
  ((List.range h.length).filter (fun a => a ∉ v)).length

/-- Invariant satisfied by every record a call of `traverse` at `path`,
`depth` appends: it lies in the call's subtree; with a finite `maxDepth` its
path length is bounded; and it sits at an ignored path only if it is the
`mark` policy's circular sentinel record. -/
def RecInv (o : DiffOptions) (path : List String) (depth : Nat) (rec : Diff) : Prop :=
  path <+: rec.path ∧
  (∀ d, o.maxDepth = some d → (rec.path.length : Int) + depth ≤ d + 1 + path.length) ∧
  (shouldIgnorePath o rec.path = true → rec.isCircMark = true)

-- Sanity checks against the source's own test suite.
example :
    objectDiff [[("prop1", .prim (.str "v1"))], [("prop1", .prim (.str "v1")), ("prop2", .prim (.str "v2"))]]
      (.ref 0) (.ref 1) {} = .ok ⟨[0, 1], [.added ["prop2"] (.prim (.str "v2"))]⟩ := by decide

example :  -- `{prop2: undefined}` vs `{}` : deleted with value undefined
    diffList (objectDiff [[("prop2", .prim .undef)], []] (.ref 0) (.ref 1) {}) =
      some [.deleted ["prop2"] (.prim .undef)] := by decide

example :  -- nested: {person:{name:'John'}} vs {person:{name:'Jane'}}
    diffList (objectDiff
        [[("person", .ref 2)], [("person", .ref 3)],
         [("name", .prim (.str "John"))], [("name", .prim (.str "Jane"))]]
      (.ref 0) (.ref 1) {}) =
      some [.updated ["person", "name"] (.prim (.str "John")) (.prim (.str "Jane"))] := by decide

example :  -- circular: obj1.prop = obj2, obj2.prop = obj1
    diffList (objectDiff [[("prop", .ref 1)], [("prop", .ref 0)]] (.ref 0) (.ref 1) {}) =
      some [.updated ["prop"] circularSentinel circularSentinel] := by decide

/-! ## Basic lemmas -/

theorem heapObj_ne_nil {h : Heap} {a : Nat} (hne : heapObj h a ≠ []) : a < h.length := by
  by_contra hlt
  exact hne (List.getD_eq_default _ _ (Nat.le_of_not_lt hlt))

theorem hasKey_lt_length {h : Heap} {a : Nat} {k : String}
    (hk : hasKey (heapObj h a) k = true) : a < h.length := by
  apply heapObj_ne_nil
  intro hnil
  rw [hnil] at hk
  simp [hasKey] at hk

theorem length_filter_mono {α : Type} (l : List α) (p q : α → Bool)
    (hpq : ∀ a ∈ l, p a = true → q a = true) :
    (l.filter p).length ≤ (l.filter q).length := by
  induction l with
  | nil => simp
  | cons a l ih =>
    have ih' := ih (fun x hx => hpq x (List.mem_cons_of_mem a hx))
    by_cases hp : p a = true
    · have hq := hpq a (List.mem_cons_self a l) hp
      simp [List.filter_cons, hp, hq]
      omega
    · rw [List.filter_cons, if_neg (by simpa using hp)]
      rcases hq : q a with _ | _
      · simpa [List.filter_cons, hq] using ih'
      · simp [List.filter_cons, hq]
        omega

theorem length_filter_lt {α : Type} (l : List α) (p q : α → Bool) (x : α)
    (hx : x ∈ l) (hpx : p x = false) (hqx : q x = true)
    (hpq : ∀ a ∈ l, p a = true → q a = true) :
    (l.filter p).length < (l.filter q).length := by
  induction l with
  | nil => simp at hx
  | cons a l ih =>
    have hmono := length_filter_mono l p q (fun y hy => hpq y (List.mem_cons_of_mem a hy))
    rcases List.mem_cons.mp hx with rfl | hx'
    · rw [List.filter_cons, if_neg (by simp [hpx]), List.filter_cons, if_pos (by simp [hqx])]
      simpa using Nat.lt_succ_of_le hmono
    · have ih' := ih hx' (fun y hy => hpq y (List.mem_cons_of_mem a hy))
      by_cases hp : p a = true
      · have hq := hpq a (List.mem_cons_self a l) hp
        simpa [List.filter_cons, hp, hq] using ih'
      · rw [List.filter_cons, if_neg (by simpa using hp)]
        rcases hq : q a with _ | _
        · simpa [List.filter_cons, hq] using ih'
        · rw [List.filter_cons, if_pos (by simp [hq])]
          exact Nat.lt_succ_of_lt ih'

theorem freeCount_le {h : Heap} {v w : List Nat} (hvw : ∀ a, a ∈ v → a ∈ w) :
    freeCount h w ≤ freeCount h v := by
  apply length_filter_mono
  intro a _ ha
  simp only [decide_eq_true_eq] at ha ⊢
  exact fun hav => ha (hvw a hav)

theorem freeCount_lt {h : Heap} {v w : List Nat} {x : Nat}
    (hx : x < h.length) (hxv : x ∉ v) (hxw : x ∈ w) (hvw : ∀ a, a ∈ v → a ∈ w) :
    freeCount h w < freeCount h v := by
  apply length_filter_lt _ _ _ x (by simpa using hx)
  · simp [hxw]
  · simp [hxv]
  · intro a _ ha
    simp only [decide_eq_true_eq] at ha ⊢
    exact fun hav => ha (hvw a hav)

theorem depth_le_of_not_exceeded {o : DiffOptions} {depth : Nat}
    (hde : depthExceeded o depth = false) :
    ∀ d, o.maxDepth = some d → (depth : Int) ≤ d := by
  intro d hd
  unfold depthExceeded at hde
  rw [hd] at hde
  simpa using hde

theorem RecInv_step {o : DiffOptions} {path : List String} {k : String} {depth : Nat} {rec : Diff}
    (hr : RecInv o (path ++ [k]) (depth + 1) rec) : RecInv o path depth rec := by
  obtain ⟨hpre, hlen, hig⟩ := hr
  refine ⟨((path.prefix_append [k]).trans hpre), ?_, hig⟩
  intro d hd
  have := hlen d hd
  simp only [List.length_append, List.length_singleton] at this
  push_cast at this ⊢
  omega

theorem prefix_same_head {q t s : List String} {k k' : String}
    (h1 : q ++ [k] <+: t) (h2 : q ++ k' :: s <+: t) : k = k' := by
  obtain ⟨t1, ht1⟩ := h1
  obtain ⟨t2, ht2⟩ := h2
  rw [← ht1] at ht2
  rw [List.append_assoc, List.append_assoc] at ht2
  have := List.append_cancel_left ht2
  have h' : k' = k ∧ s ++ t2 = t1 := by simpa using this
  exact h'.1.symm

theorem keyStep_err {o : DiffOptions} {lObj rObj : Obj} {path : List String}
    {rec : Value → Value → List String → St → TResult} {m : String} {k : String} :
    keyStep o lObj rObj path rec (.err m) k = .err m := rfl

theorem keyStep_fuelOut {o : DiffOptions} {lObj rObj : Obj} {path : List String}
    {rec : Value → Value → List String → St → TResult} {k : String} :
    keyStep o lObj rObj path rec .fuelOut k = .fuelOut := rfl

theorem foldl_keyStep_err {o : DiffOptions} {lObj rObj : Obj} {path : List String}
    {rec : Value → Value → List String → St → TResult} {m : String} :
    ∀ keys : List String, keys.foldl (keyStep o lObj rObj path rec) (.err m) = .err m := by
  intro keys
  induction keys with
  | nil => rfl
  | cons k ks ih => rw [List.foldl_cons, keyStep_err]; exact ih

theorem foldl_keyStep_fuelOut {o : DiffOptions} {lObj rObj : Obj} {path : List String}
    {rec : Value → Value → List String → St → TResult} :
    ∀ keys : List String, keys.foldl (keyStep o lObj rObj path rec) .fuelOut = .fuelOut := by
  intro keys
  induction keys with
  | nil => rfl
  | cons k ks ih => rw [List.foldl_cons, keyStep_fuelOut]; exact ih

/-! ## The master invariant: every normal return extends `visited` and
appends only records satisfying `RecInv` -/

theorem RecInv_self (o : DiffOptions) (path : List String) (depth : Nat) (d : Diff)
    (hp : d.path = path)
    (hdep1 : ∀ dd, o.maxDepth = some dd → (depth : Int) ≤ dd + 1)
    (hig : shouldIgnorePath o path = false ∨ d.isCircMark = true) : RecInv o path depth d := by
  refine ⟨by rw [hp], ?_, ?_⟩
  · intro dd hdd
    rw [hp]
    have := hdep1 dd hdd
    omega
  · intro hsi
    rw [hp] at hsi
    rcases hig with hig | hig
    · rw [hig] at hsi
      cases hsi
    · exact hig

theorem RecInv_child (o : DiffOptions) (path : List String) (k : String) (depth : Nat) (d : Diff)
    (hp : d.path = path ++ [k])
    (hdep : ∀ dd, o.maxDepth = some dd → (depth : Int) ≤ dd)
    (hig : shouldIgnorePath o (path ++ [k]) = false) : RecInv o path depth d := by
  refine ⟨by rw [hp]; exact List.prefix_append path [k], ?_, ?_⟩
  · intro dd hdd
    rw [hp]
    have := hdep dd hdd
    simp only [List.length_append, List.length_singleton]
    push_cast
    omega
  · intro hsi
    rw [hp, hig] at hsi
    cases hsi

theorem foldl_keyStep_ok (o : DiffOptions) (lObj rObj : Obj) (path : List String) (depth : Nat)
    (rec : Value → Value → List String → St → TResult)
    (recH : ∀ lv rv k st1 st2, rec lv rv (path ++ [k]) st1 = .ok st2 →
      (∃ ve, st2.visited = st1.visited ++ ve) ∧
      (∃ ext, st2.diffs = st1.diffs ++ ext ∧ ∀ d ∈ ext, RecInv o (path ++ [k]) (depth + 1) d))
    (hdep : ∀ d, o.maxDepth = some d → (depth : Int) ≤ d) :
    ∀ (keys : List String) (st0 st' : St),
    keys.foldl (keyStep o lObj rObj path rec) (.ok st0) = .ok st' →
    (∃ ve, st'.visited = st0.visited ++ ve) ∧
    (∃ ext, st'.diffs = st0.diffs ++ ext ∧ ∀ d ∈ ext, RecInv o path depth d) := by
  intro keys
  induction keys with
  | nil =>
    intro st0 st' hrun
    cases hrun
    exact ⟨⟨[], by simp⟩, [], by simp, by simp⟩
  | cons k ks ih =>
    intro st0 st' hrun
    rw [List.foldl_cons] at hrun
    simp only [keyStep] at hrun
    split at hrun
    · -- right side lacks the key: `deleted` (possibly suppressed)
      split at hrun
      · rename_i hguard
        simp only [Bool.and_eq_true, Bool.not_eq_true'] at hguard
        obtain ⟨⟨ve, hve⟩, ext, hext, hinv⟩ := ih _ _ hrun
        refine ⟨⟨ve, by simpa [pushD] using hve⟩,
          .deleted (path ++ [k]) (objGet lObj k) :: ext, by simpa [pushD] using hext, ?_⟩
        intro d hd0
        rcases List.mem_cons.mp hd0 with rfl | hd
        · exact RecInv_child o path k depth _ rfl hdep hguard.1
        · exact hinv d hd
      · obtain ⟨⟨ve, hve⟩, ext, hext, hinv⟩ := ih _ _ hrun
        exact ⟨⟨ve, hve⟩, ext, hext, hinv⟩
    · split at hrun
      · -- left side lacks the key: `added` (possibly suppressed)
        split at hrun
        · rename_i hguard
          simp only [Bool.and_eq_true, Bool.not_eq_true'] at hguard
          obtain ⟨⟨ve, hve⟩, ext, hext, hinv⟩ := ih _ _ hrun
          refine ⟨⟨ve, by simpa [pushD] using hve⟩,
            .added (path ++ [k]) (objGet rObj k) :: ext, by simpa [pushD] using hext, ?_⟩
          intro d hd0
          rcases List.mem_cons.mp hd0 with rfl | hd
          · exact RecInv_child o path k depth _ rfl hdep hguard.1
          · exact hinv d hd
        · obtain ⟨⟨ve, hve⟩, ext, hext, hinv⟩ := ih _ _ hrun
          exact ⟨⟨ve, hve⟩, ext, hext, hinv⟩
      · -- key on both sides: recurse
        rcases he : rec (objGet lObj k) (objGet rObj k) (path ++ [k]) st0 with st2 | m | _
        · rw [he] at hrun
          obtain ⟨⟨ve1, hve1⟩, ext1, hext1, hinv1⟩ := recH _ _ _ _ _ he
          obtain ⟨⟨ve2, hve2⟩, ext2, hext2, hinv2⟩ := ih _ _ hrun
          refine ⟨⟨ve1 ++ ve2, by rw [hve2, hve1, List.append_assoc]⟩,
            ext1 ++ ext2, by rw [hext2, hext1, List.append_assoc], ?_⟩
          intro d hd
          rcases List.mem_append.mp hd with hd1 | hd2
          · exact RecInv_step (hinv1 d hd1)
          · exact hinv2 d hd2
        · rw [he, foldl_keyStep_err] at hrun
          cases hrun
        · rw [he, foldl_keyStep_fuelOut] at hrun
          cases hrun

theorem traverse_ok (o : DiffOptions) (h : Heap) :
    ∀ (fuel : Nat) (l r : Value) (path : List String) (depth : Nat) (st st' : St),
    traverse o h fuel l r path depth st = .ok st' →
    (∃ ve, st'.visited = st.visited ++ ve) ∧
    (∃ ext, st'.diffs = st.diffs ++ ext ∧ ∀ d ∈ ext, RecInv o path depth d) := by
  intro fuel
  induction fuel with
  | zero =>
    intro l r path depth st st' hrun
    simp [traverse] at hrun
  | succ fuel ih =>
    intro l r path depth st st' hrun
    simp only [traverse] at hrun
    split at hrun
    · cases hrun
      exact ⟨⟨[], by simp⟩, [], by simp, by simp⟩
    · rename_i hde
      rw [Bool.not_eq_true] at hde
      have hdep := depth_le_of_not_exceeded hde
      have hdep1 : ∀ dd, o.maxDepth = some dd → (depth : Int) ≤ dd + 1 := by
        intro dd hdd
        have := hdep dd hdd
        omega
      split at hrun
      · -- both sides are non-null objects
        rename_i la ra
        split at hrun
        · cases hrun
          exact ⟨⟨[], by simp⟩, [], by simp, by simp⟩
        · split at hrun
          · -- already visited: apply the circular policy
            split at hrun
            · cases hrun
            · cases hrun
              refine ⟨⟨[], by simp [pushD]⟩,
                [.updated path circularSentinel circularSentinel], by simp [pushD], ?_⟩
              intro d hd0
              rcases List.mem_cons.mp hd0 with rfl | h'
              · exact RecInv_self o path depth _ rfl hdep1 (.inr (by simp [Diff.isCircMark]))
              · cases h'
            · cases hrun
              exact ⟨⟨[], by simp⟩, [], by simp, by simp⟩
          · -- mark visited and walk the key union
            obtain ⟨⟨ve, hve⟩, ext, hext, hinv⟩ := foldl_keyStep_ok o (heapObj h la)
              (heapObj h ra) path depth _
              (fun lv rv k st1 st2 hr => ih lv rv (path ++ [k]) (depth + 1) st1 st2 hr)
              hdep _ _ _ hrun
            exact ⟨⟨[la, ra] ++ ve, by rw [hve]; simp⟩, ext, by simpa using hext, hinv⟩
      · -- at least one side is primitive or null
        split at hrun
        · rename_i hguard
          simp only [Bool.and_eq_true, Bool.not_eq_true'] at hguard
          split at hrun
          · cases hrun
            refine ⟨⟨[], by simp [pushD]⟩, [.deleted path l], by simp [pushD], ?_⟩
            intro d hd0
            rcases List.mem_cons.mp hd0 with rfl | h'
            · exact RecInv_self o path depth _ rfl hdep1 (.inl hguard.2)
            · cases h'
          · split at hrun
            · cases hrun
              refine ⟨⟨[], by simp [pushD]⟩, [.added path r], by simp [pushD], ?_⟩
              intro d hd0
              rcases List.mem_cons.mp hd0 with rfl | h'
              · exact RecInv_self o path depth _ rfl hdep1 (.inl hguard.2)
              · cases h'
            · cases hrun
              refine ⟨⟨[], by simp [pushD]⟩, [.updated path l r], by simp [pushD], ?_⟩
              intro d hd0
              rcases List.mem_cons.mp hd0 with rfl | h'
              · exact RecInv_self o path depth _ rfl hdep1 (.inl hguard.2)
              · cases h'
        · cases hrun
          exact ⟨⟨[], by simp⟩, [], by simp, by simp⟩

/-! ## Shape of thrown errors: only the `error` policy throws, and only with
the circular-reference message -/

theorem foldl_keyStep_err_shape {P : String → Prop} (o : DiffOptions) (lObj rObj : Obj)
    (path : List String) (rec : Value → Value → List String → St → TResult)
    (recH : ∀ lv rv k st1 msg, rec lv rv (path ++ [k]) st1 = .err msg → P msg) :
    ∀ (keys : List String) (acc : TResult) (msg : String),
    keys.foldl (keyStep o lObj rObj path rec) acc = .err msg →
    acc = .err msg ∨ P msg := by
  intro keys
  induction keys with
  | nil =>
    intro acc msg hrun
    exact .inl hrun
  | cons k ks ih =>
    intro acc msg hrun
    rw [List.foldl_cons] at hrun
    rcases ih _ _ hrun with hstep | hP
    · rcases acc with stx | m | _
      · simp only [keyStep] at hstep
        split at hstep
        · cases hstep
        · split at hstep
          · cases hstep
          · exact .inr (recH _ _ _ _ _ hstep)
      · simp only [keyStep] at hstep
        exact .inl hstep
      · simp only [keyStep] at hstep
        cases hstep
    · exact .inr hP

theorem traverse_err (o : DiffOptions) (h : Heap) :
    ∀ (fuel : Nat) (l r : Value) (path : List String) (depth : Nat) (st : St) (msg : String),
    traverse o h fuel l r path depth st = .err msg →
    o.circularRefs = .error ∧ ∃ p, msg = circularMsg p := by
  intro fuel
  induction fuel with
  | zero =>
    intro l r path depth st msg hrun
    simp [traverse] at hrun
  | succ fuel ih =>
    intro l r path depth st msg hrun
    simp only [traverse] at hrun
    split at hrun
    · cases hrun
    · split at hrun
      · rename_i la ra
        split at hrun
        · cases hrun
        · split at hrun
          · split at hrun
            · rename_i hpol
              cases hrun
              exact ⟨hpol, path, rfl⟩
            · cases hrun
            · cases hrun
          · rcases foldl_keyStep_err_shape o (heapObj h la) (heapObj h ra) path _
              (fun lv rv k st1 msg0 hr => ih lv rv (path ++ [k]) (depth + 1) st1 msg0 hr)
              _ _ _ hrun with hacc | hP
            · cases hacc
            · exact hP
      · split at hrun
        · split at hrun
          · cases hrun
          · split at hrun
            · cases hrun
            · cases hrun
        · cases hrun

/-! ## Fuel sufficiency: `diffFuel` never runs out -/

theorem traverse_no_fuelOut (o : DiffOptions) (h : Heap) :
    ∀ (fuel : Nat) (l r : Value) (path : List String) (depth : Nat) (st : St),
    freeCount h st.visited + 1 ≤ fuel →
    traverse o h fuel l r path depth st ≠ .fuelOut := by
  intro fuel
  induction fuel with
  | zero =>
    intro l r path depth st hfuel
    exact absurd hfuel (by omega)
  | succ fuel ih =>
    intro l r path depth st hfuel hrun
    simp only [traverse] at hrun
    split at hrun
    · cases hrun
    · split at hrun
      · rename_i la ra
        split at hrun
        · cases hrun
        · split at hrun
          · split at hrun <;> cases hrun
          · rename_i hnv
            simp only [Bool.or_eq_true, decide_eq_true_eq, not_or] at hnv
            have haux : ∀ (keys : List String) (acc : TResult),
                acc ≠ .fuelOut →
                (∀ stx, acc = .ok stx →
                  ∀ a, a ∈ st.visited ++ [la, ra] → a ∈ stx.visited) →
                keys.foldl (keyStep o (heapObj h la) (heapObj h ra) path
                  (fun lv rv newPath st' => traverse o h fuel lv rv newPath (depth + 1) st'))
                  acc ≠ .fuelOut := by
              intro keys
              induction keys with
              | nil =>
                intro acc hacc _
                simpa using hacc
              | cons k ks ihk =>
                intro acc hacc hsub
                rw [List.foldl_cons]
                rcases acc with stx | m | _
                · have hsub' := hsub stx rfl
                  simp only [keyStep]
                  split
                  · apply ihk _ (by simp) ?_
                    intro sty hy a ha
                    split at hy <;> (cases hy; simp [pushD] at *) <;> exact hsub' a ha
                  · split
                    · apply ihk _ (by simp) ?_
                      intro sty hy a ha
                      split at hy <;> (cases hy; simp [pushD] at *) <;> exact hsub' a ha
                    · rename_i hkr hkl
                      simp only [Bool.not_eq_true', Bool.not_eq_false] at hkr hkl
                      have hla_lt : la < h.length := hasKey_lt_length hkl
                      have hfc : freeCount h stx.visited + 1 ≤ fuel := by
                        have hlt : freeCount h stx.visited < freeCount h st.visited := by
                          apply freeCount_lt hla_lt hnv.1
                          · exact hsub' la (by simp)
                          · intro a ha
                            exact hsub' a (by simp [ha])
                        omega
                      rcases hc : traverse o h fuel (objGet (heapObj h la) k)
                          (objGet (heapObj h ra) k) (path ++ [k]) (depth + 1) stx with st2 | m2 | _
                      · apply ihk _ (by simp) ?_
                        intro sty hy a ha
                        cases hy
                        obtain ⟨⟨ve, hve⟩, _⟩ := traverse_ok o h fuel _ _ _ _ _ _ hc
                        rw [hve]
                        exact List.mem_append_left _ (hsub' a ha)
                      · rw [foldl_keyStep_err]
                        simp
                      · exact absurd hc (ih _ _ _ _ _ hfc)
                · rw [keyStep_err, foldl_keyStep_err]
                  simp
                · exact absurd rfl hacc
            exact haux _ _ (by simp) (by intro stx hx a ha; cases hx; simpa using ha) hrun
      · split at hrun
        · split at hrun
          · cases hrun
          · split at hrun
            · cases hrun
            · cases hrun
        · cases hrun

/-! ## Custom comparators suppress their subtree

If a comparator is registered for the dotted join of a path that the
traversal reaches with two object values, and it accepts that pair, then no
record is emitted at that path or below it. -/

theorem traverse_cw (o : DiffOptions) (h : Heap) :
    ∀ (fuel : Nat) (sub : List String) (l r : Value) (q : List String) (depth : Nat)
      (st st' : St) (f : Value → Value → Bool) (lv rv : Value),
    o.compareWith.lookup (joinDot (q ++ sub)) = some f →
    resolvePair h l r sub = some (lv, rv) →
    (∃ a, lv = .ref a) → (∃ b, rv = .ref b) → f lv rv = true →
    traverse o h fuel l r q depth st = .ok st' →
    ∀ rec ∈ st'.diffs, rec ∈ st.diffs ∨ ¬ ((q ++ sub) <+: rec.path) := by
  intro fuel
  induction fuel with
  | zero =>
    intro sub l r q depth st st' f lv rv _ _ _ _ _ hrun
    simp [traverse] at hrun
  | succ fuel ih =>
    intro sub l r q depth st st' f lv rv hcw hres hlv hrv hf hrun
    obtain ⟨va, rfl⟩ := hlv
    obtain ⟨vb, rfl⟩ := hrv
    simp only [traverse] at hrun
    split at hrun
    · cases hrun
      intro rec hrec
      exact .inl hrec
    · split at hrun
      · rename_i la ra
        split at hrun
        · cases hrun
          intro rec hrec
          exact .inl hrec
        · rename_i hcwf
          rcases sub with _ | ⟨k0, sub'⟩
          · exfalso
            simp only [resolvePair, Option.some_inj, Prod.mk.injEq] at hres
            apply hcwf
            unfold checkCW
            simp only [List.append_nil] at hcw
            rw [hcw]
            rw [hres.1, hres.2]
            exact hf
          · split at hrun
            · split at hrun
              · cases hrun
              · cases hrun
                intro rec hrec
                have hrec2 : rec ∈ st.diffs ∨ rec = Diff.updated q circularSentinel circularSentinel := by
                  simpa [pushD] using hrec
                rcases hrec2 with hin | rfl
                · exact .inl hin
                · right
                  intro hpre
                  have := hpre.length_le
                  simp [Diff.path] at this
              · cases hrun
                intro rec hrec
                exact .inl hrec
            · simp only [resolvePair] at hres
              split at hres
              · rename_i hbk
                simp only [Bool.and_eq_true] at hbk
                have haux : ∀ (keys : List String) (st0 : St),
                    (∀ rec ∈ st0.diffs, rec ∈ st.diffs ∨ ¬ ((q ++ k0 :: sub') <+: rec.path)) →
                    ∀ st'', keys.foldl (keyStep o (heapObj h la) (heapObj h ra) q
                      (fun lv rv newPath stx => traverse o h fuel lv rv newPath (depth + 1) stx))
                      (.ok st0) = .ok st'' →
                    ∀ rec ∈ st''.diffs, rec ∈ st.diffs ∨ ¬ ((q ++ k0 :: sub') <+: rec.path) := by
                  intro keys
                  induction keys with
                  | nil =>
                    intro st0 hinv st'' hrun2
                    cases hrun2
                    exact hinv
                  | cons k ks ihk =>
                    intro st0 hinv st'' hrun2
                    rw [List.foldl_cons] at hrun2
                    simp only [keyStep] at hrun2
                    split at hrun2
                    · rename_i hkr
                      simp only [Bool.not_eq_true'] at hkr
                      refine ihk _ ?_ _ hrun2
                      split
                      · intro rec hrec
                        have hrec2 : rec ∈ st0.diffs ∨
                            rec = Diff.deleted (q ++ [k]) (objGet (heapObj h la) k) := by
                          simpa [pushD] using hrec
                        rcases hrec2 with hin | rfl
                        · exact hinv rec hin
                        · right
                          intro hpre
                          simp only [Diff.path] at hpre
                          have hk : k = k0 := prefix_same_head List.prefix_rfl hpre
                          rw [← hk] at hbk
                          rw [hbk.2] at hkr
                          cases hkr
                      · exact hinv
                    · split at hrun2
                      · rename_i hkl
                        simp only [Bool.not_eq_true'] at hkl
                        refine ihk _ ?_ _ hrun2
                        split
                        · intro rec hrec
                          have hrec2 : rec ∈ st0.diffs ∨
                              rec = Diff.added (q ++ [k]) (objGet (heapObj h ra) k) := by
                            simpa [pushD] using hrec
                          rcases hrec2 with hin | rfl
                          · exact hinv rec hin
                          · right
                            intro hpre
                            simp only [Diff.path] at hpre
                            have hk : k = k0 := prefix_same_head List.prefix_rfl hpre
                            rw [← hk] at hbk
                            rw [hbk.1] at hkl
                            cases hkl
                        · exact hinv
                      · rcases hc : traverse o h fuel (objGet (heapObj h la) k)
                            (objGet (heapObj h ra) k) (q ++ [k]) (depth + 1) st0 with st2 | m | _
                        · rw [hc] at hrun2
                          refine ihk _ ?_ _ hrun2
                          by_cases hkk : k = k0
                          · subst hkk
                            have hsub := ih sub' (objGet (heapObj h la) k)
                              (objGet (heapObj h ra) k) (q ++ [k]) (depth + 1) st0 st2 f
                              (.ref va) (.ref vb) (by simpa using hcw) hres ⟨va, rfl⟩ ⟨vb, rfl⟩
                              hf hc
                            intro rec hrec
                            rcases hsub rec hrec with hin | hnpre
                            · exact hinv rec hin
                            · right
                              intro hpre
                              exact hnpre (by simpa using hpre)
                          · obtain ⟨_, ext, hext, hrecinv⟩ := traverse_ok o h fuel _ _ _ _ _ _ hc
                            intro rec hrec
                            rw [hext] at hrec
                            rcases List.mem_append.mp hrec with hin | hnew
                            · exact hinv rec hin
                            · right
                              intro hpre
                              exact hkk (prefix_same_head (hrecinv rec hnew).1 hpre)
                        · rw [hc, foldl_keyStep_err] at hrun2
                          cases hrun2
                        · rw [hc, foldl_keyStep_fuelOut] at hrun2
                          cases hrun2
                exact haux _ { st with visited := st.visited ++ [la, ra] }
                  (fun rec hrec => .inl hrec) _ hrun
              · cases hres
      · rename_i hnc
        exfalso
        rcases sub with _ | ⟨k0, sub'⟩
        · simp only [resolvePair, Option.some_inj, Prod.mk.injEq] at hres
          exact hnc va vb hres.1 hres.2
        · rcases l with pl | la
          · simp [resolvePair] at hres
          · rcases r with pr | ra
            · simp [resolvePair] at hres
            · exact hnc la ra rfl rfl

/-! ## Facts at the `objectDiff` wrapper level -/

theorem jsEq_undef_right (v : Value) : jsEq v (.prim .undef) = decide (v = .prim .undef) := by
  rcases v with p | a
  · cases p <;> rfl
  · rfl

theorem jsEq_undef_left (v : Value) : jsEq (.prim .undef) v = decide (Value.prim .undef = v) := by
  rcases v with p | a
  · cases p <;> rfl
  · rfl

theorem freeCount_nil_visited (h : Heap) : freeCount h [] = h.length := by
  simp [freeCount]

/-! ## Claim theorems -/

/-- Claim C1: for two structures each containing an equivalent self-reference
under the same key, `circularRefs: 'ignore'` yields no record, `'mark'`
(the default) yields exactly one `updated` record at that path carrying the
`'[Circular]'` sentinel on both sides, and `'error'` throws an error whose
message names that dotted path; the traversal returns (no unbounded
recursion). -/
theorem c1_cycle_policy_consistency (k : String) :
    diffList (objectDiff [[(k, .ref 0)], [(k, .ref 1)]] (.ref 0) (.ref 1)
      { circularRefs := .ignore }) = some [] ∧
    diffList (objectDiff [[(k, .ref 0)], [(k, .ref 1)]] (.ref 0) (.ref 1) {}) =
      some [.updated [k] circularSentinel circularSentinel] ∧
    objectDiff [[(k, .ref 0)], [(k, .ref 1)]] (.ref 0) (.ref 1)
      { circularRefs := .error } = .err (circularMsg [k]) := by
  refine ⟨?_, ?_, ?_⟩ <;>
    simp [objectDiff, jsEq, diffFuel, traverse, keyStep, dedupFirst, dedupAux,
      heapObj, objKeys, objGet, hasKey, checkCW, depthExceeded, shouldIgnorePath,
      shouldIgnoreType, pushD, diffList, List.lookup]

/-- Claim C2: the call throws only under `circularRefs: 'error'`, and then the
message is the circular-reference message for some dotted path; under every
other policy the call returns normally for every input (never throws, always
terminates).  A thrown error carries no diff list by construction. -/
theorem c2_throws_iff_error_policy (h : Heap) (l r : Value) (o : DiffOptions) :
    (o.circularRefs ≠ .error → ∃ st, objectDiff h l r o = .ok st) ∧
    (∀ msg, objectDiff h l r o = .err msg →
      o.circularRefs = .error ∧ ∃ p, msg = circularMsg p) := by
  constructor
  · intro hpol
    rcases hres : objectDiff h l r o with st | msg | _
    · exact ⟨st, rfl⟩
    · unfold objectDiff at hres
      split at hres
      · cases hres
      · exact absurd (traverse_err o h _ _ _ _ _ _ _ hres).1 hpol
    · unfold objectDiff at hres
      split at hres
      · cases hres
      · exact absurd hres (traverse_no_fuelOut o h _ _ _ _ _ _
          (by rw [show (⟨[], []⟩ : St).visited = [] from rfl, freeCount_nil_visited]
              simp [diffFuel]))
  · intro msg hres
    unfold objectDiff at hres
    split at hres
    · cases hres
    · exact traverse_err o h _ _ _ _ _ _ _ hres

/-- Claim C2 witness: a concrete non-`error` configuration returns normally. -/
theorem c2_throws_iff_error_policy_witness :
    ∃ st, objectDiff [[("a", .prim (.num 1))], [("a", .prim (.num 2))]]
      (.ref 0) (.ref 1) {} = .ok st :=
  (c2_throws_iff_error_policy _ _ _ _).1 (by decide)

/-- Claim C3 counterexample: with `maxDepth = 0` the key loop still emits a
`deleted` record whose path has 1 > 0 segments, because the source checks the
depth only on recursion, not before pushing `added`/`deleted`. -/
theorem c3_counterexample_depth_exceeded :
    diffList (objectDiff [[("a", .prim (.num 1))], []] (.ref 0) (.ref 1)
      { maxDepth := some 0 }) = some [.deleted ["a"] (.prim (.num 1))] ∧
    ¬ (((["a"] : List String).length : Int) ≤ 0) := by
  exact ⟨by decide, by decide⟩

/-- Claim C3 amended: for `maxDepth = d`, every record's path has at most
`d + 1` segments (records produced by recursion stay within `d`, but
`added`/`deleted` records for one-sided keys can reach `d + 1`). -/
theorem c3_depth_bound (h : Heap) (l r : Value) (o : DiffOptions) (d : Int) (st : St)
    (hd : o.maxDepth = some d) (hrun : objectDiff h l r o = .ok st) :
    ∀ rec ∈ st.diffs, (rec.path.length : Int) ≤ d + 1 := by
  intro rec hrec
  unfold objectDiff at hrun
  split at hrun
  · cases hrun
    simp at hrec
  · obtain ⟨_, ext, hext, hinv⟩ := traverse_ok o h _ _ _ _ _ _ _ hrun
    rw [hext] at hrec
    have hlen := (hinv rec (by simpa using hrec)).2.1 d hd
    simpa using hlen

/-- Claim C3 witness: the depth bound applied at a concrete input. -/
theorem c3_depth_bound_witness :
    ((Diff.deleted ["a"] (.prim (.num 1))).path.length : Int) ≤ 0 + 1 := by
  refine c3_depth_bound [[("a", .prim (.num 1))], []] (.ref 0) (.ref 1)
    { maxDepth := some 0 } 0 ⟨[0, 1], [.deleted ["a"] (.prim (.num 1))]⟩ rfl (by decide)
    (.deleted ["a"] (.prim (.num 1))) (by decide)

/-- Claim C4 counterexample: the `mark` policy's sentinel record is pushed
without consulting `ignorePaths`, so a record appears at an ignored path. -/
theorem c4_counterexample_sentinel_at_ignored_path :
    shouldIgnorePath { ignorePaths := ["self"] } ["self"] = true ∧
    diffList (objectDiff [[("self", .ref 0)], [("self", .ref 1)]] (.ref 0) (.ref 1)
      { ignorePaths := ["self"] }) =
      some [.updated ["self"] circularSentinel circularSentinel] := by
  exact ⟨by decide, by decide⟩

/-- Claim C4 amended: for every `p` in `ignorePaths`, every record whose
dotted path equals `p` or is nested under `p` is a circular-sentinel record;
all value-comparison records respect the ignore rules. -/
theorem c4_ignore_paths_complete (h : Heap) (l r : Value) (o : DiffOptions) (st : St)
    (hrun : objectDiff h l r o = .ok st) :
    ∀ p ∈ o.ignorePaths, ∀ rec ∈ st.diffs,
    (joinDot rec.path = p ∨ (joinDot rec.path).startsWith (p ++ ".") = true) →
    rec.isCircMark = true := by
  intro p hp rec hrec hmatch
  unfold objectDiff at hrun
  split at hrun
  · cases hrun
    simp at hrec
  · obtain ⟨_, ext, hext, hinv⟩ := traverse_ok o h _ _ _ _ _ _ _ hrun
    rw [hext] at hrec
    apply (hinv rec (by simpa using hrec)).2.2
    unfold shouldIgnorePath
    rw [List.any_eq_true]
    refine ⟨p, hp, ?_⟩
    rcases hmatch with hm | hm
    · simp [hm]
    · simp [hm]

/-- Claim C4 witness: the completeness statement applied at a concrete input
(the only record at the ignored path is the sentinel). -/
theorem c4_ignore_paths_complete_witness :
    (Diff.updated ["self"] circularSentinel circularSentinel).isCircMark = true := by
  refine c4_ignore_paths_complete [[("self", .ref 0)], [("self", .ref 1)]]
    (.ref 0) (.ref 1) { ignorePaths := ["self"] }
    ⟨[0, 1], [.updated ["self"] circularSentinel circularSentinel]⟩ (by decide)
    "self" (by decide) _ (by decide) (.inl (by decide))

/-- Claim C5 counterexample: a comparator registered for a path holding
primitive values is never consulted — the primitive branch runs first and
emits an `updated` record even though the comparator accepts the pair. -/
theorem c5_counterexample_primitive_comparator :
    checkCW { compareWith := [("a", fun _ _ => true)] } (joinDot ["a"])
      (.prim (.num 1)) (.prim (.num 2)) = true ∧
    diffList (objectDiff [[("a", .prim (.num 1))], [("a", .prim (.num 2))]] (.ref 0) (.ref 1)
      { compareWith := [("a", fun _ _ => true)] }) =
      some [.updated ["a"] (.prim (.num 1)) (.prim (.num 2))] := by
  exact ⟨rfl, by decide⟩

/-- Claim C5 amended: when the pair of values the traversal passes at a path
consists of two (non-null) objects and the comparator registered for that
dotted path accepts them, no record is emitted at that path or below it. -/
theorem c5_comparator_skips_subtree (h : Heap) (l r : Value) (o : DiffOptions) (st : St)
    (p : List String) (f : Value → Value → Bool) (lv rv : Value) (a b : Nat)
    (hcw : o.compareWith.lookup (joinDot p) = some f)
    (hres : resolvePair h l r p = some (lv, rv))
    (hlv : lv = .ref a) (hrv : rv = .ref b) (hf : f lv rv = true)
    (hrun : objectDiff h l r o = .ok st) :
    ∀ rec ∈ st.diffs, ¬ (p <+: rec.path) := by
  intro rec hrec
  unfold objectDiff at hrun
  split at hrun
  · cases hrun
    simp at hrec
  · have hcl := traverse_cw o h (diffFuel h) p l r [] 0 ⟨[], []⟩ st f lv rv
      (by simpa using hcw) hres ⟨a, hlv⟩ ⟨b, hrv⟩ hf hrun rec hrec
    rcases hcl with hin | hnpre
    · simp at hin
    · simpa using hnpre

/-- Claim C5 witness: a comparator accepting two nested objects suppresses
that subtree at a concrete input — the one emitted record lies outside it. -/
theorem c5_comparator_skips_subtree_witness :
    ¬ ((["a"] : List String) <+:
      (Diff.updated ["b"] (.prim (.num 1)) (.prim (.num 2))).path) := by
  refine c5_comparator_skips_subtree
    [[("a", .ref 2), ("b", .prim (.num 1))], [("a", .ref 3), ("b", .prim (.num 2))],
     [("x", .prim (.num 1))], [("x", .prim (.num 2))]]
    (.ref 0) (.ref 1) { compareWith := [("a", fun _ _ => true)] }
    ⟨[0, 1], [.updated ["b"] (.prim (.num 1)) (.prim (.num 2))]⟩
    ["a"] (fun _ _ => true) (.ref 2) (.ref 3) 2 3 rfl (by decide) rfl rfl rfl (by decide)
    (Diff.updated ["b"] (.prim (.num 1)) (.prim (.num 2))) (by decide)

/-- Claim C6 counterexample: two distinct callables at the same both-present
key produce an `updated` record under default options. -/
theorem c6_counterexample_functions_updated :
    diffList (objectDiff [[("f", .prim (.func 0))], [("f", .prim (.func 1))]]
      (.ref 0) (.ref 1) {}) =
      some [.updated ["f"] (.prim (.func 0)) (.prim (.func 1))] := by decide

/-- Claim C6 amended: callables are compared by reference identity in the
primitive branch, so with default options two different callables at a
both-present key always produce exactly one `updated` record at that path. -/
theorem c6_functions_compared_by_identity (k : String) (i j : Nat) (hij : i ≠ j) :
    diffList (objectDiff [[(k, .prim (.func i))], [(k, .prim (.func j))]]
      (.ref 0) (.ref 1) {}) =
      some [.updated [k] (.prim (.func i)) (.prim (.func j))] := by
  simp [objectDiff, jsEq, diffFuel, traverse, keyStep, dedupFirst, dedupAux,
    heapObj, objKeys, objGet, hasKey, checkCW, depthExceeded, shouldIgnorePath,
    shouldIgnoreType, pushD, diffList, List.lookup, hij]

/-- Claim C6 witness: the identity comparison at concrete callables. -/
theorem c6_functions_compared_by_identity_witness :
    diffList (objectDiff [[("g", .prim (.func 4))], [("g", .prim (.func 7))]]
      (.ref 0) (.ref 1) {}) =
      some [.updated ["g"] (.prim (.func 4)) (.prim (.func 7))] :=
  c6_functions_compared_by_identity "g" 4 7 (by decide)

/-- Claim C7 counterexample: a key present on both sides whose left value is
`undefined` and whose right value is defined yields an `added` record, not an
`updated` one. -/
theorem c7_counterexample_undefined_reclassified :
    hasKey [("a", .prim .undef)] "a" = true ∧
    hasKey [("a", .prim (.num 1))] "a" = true ∧
    diffList (objectDiff [[("a", .prim .undef)], [("a", .prim (.num 1))]]
      (.ref 0) (.ref 1) {}) = some [.added ["a"] (.prim (.num 1))] := by
  exact ⟨by decide, by decide, by decide⟩

/-- Claim C7 amended: at a key present on both sides with unequal values, an
`undefined` left value yields an `added` record carrying the right value and
an `undefined` right value yields a `deleted` record carrying the left value
(the key-union treats the key as present; the record type is reclassified by
the explicit `undefined` checks in the primitive branch). -/
theorem c7_undefined_added_deleted (k : String) (v : Value) (hv : v ≠ .prim .undef) :
    diffList (objectDiff [[(k, .prim .undef)], [(k, v)]] (.ref 0) (.ref 1) {}) =
      some [.added [k] v] ∧
    diffList (objectDiff [[(k, v)], [(k, .prim .undef)]] (.ref 0) (.ref 1) {}) =
      some [.deleted [k] v] := by
  have hv' : Value.prim Prim.undef ≠ v := Ne.symm hv
  constructor <;>
    simp [objectDiff, diffFuel, traverse, keyStep, dedupFirst, dedupAux,
      heapObj, objKeys, objGet, hasKey, checkCW, depthExceeded, shouldIgnorePath,
      shouldIgnoreType, pushD, diffList, List.lookup,
      jsEq_undef_left, jsEq_undef_right, jsEq, hv, hv']

/-- Claim C7 witness: the reclassification at a concrete defined value. -/
theorem c7_undefined_added_deleted_witness :
    diffList (objectDiff [[("b", .prim .undef)], [("b", .prim (.str "x"))]]
      (.ref 0) (.ref 1) {}) = some [.added ["b"] (.prim (.str "x"))] ∧
    diffList (objectDiff [[("b", .prim (.str "x"))], [("b", .prim .undef)]]
      (.ref 0) (.ref 1) {}) = some [.deleted ["b"] (.prim (.str "x"))] :=
  c7_undefined_added_deleted "b" (.prim (.str "x")) (by decide)

/-- Claim C8 counterexample: `objectDiff(NaN, NaN)` is not empty — `NaN` is
the same primitive value on both sides, but `NaN === NaN` is false, so the
identity shortcut misses and the primitive branch emits a root `updated`
record. -/
theorem c8_counterexample_nan :
    diffList (objectDiff [] (.prim .nan) (.prim .nan) {}) =
      some [.updated [] (.prim .nan) (.prim .nan)] ∧
    diffList (objectDiff [] (.prim .nan) (.prim .nan) {}) ≠ some [] := by
  exact ⟨by decide, by decide⟩

/-- Claim C8 amended: for every `x` with `x === x` (every value except the
`NaN` primitive) and every configuration, `objectDiff(x, x)` returns the
empty list. -/
theorem c8_identity_law (h : Heap) (x : Value) (o : DiffOptions)
    (hx : jsEq x x = true) : objectDiff h x x o = .ok ⟨[], []⟩ := by
  unfold objectDiff
  rw [if_pos hx]

/-- Claim C8 witness: the identity law at a concrete value. -/
theorem c8_identity_law_witness :
    objectDiff [] (.prim (.num 3)) (.prim (.num 3)) {} = .ok ⟨[], []⟩ :=
  c8_identity_law [] (.prim (.num 3)) {} (by decide)

/-- With a non-positive finite `maxDepth`, any call at depth at least 1
returns its state unchanged: the depth check fires before anything else. -/
theorem traverse_stops_deep (o : DiffOptions) (h : Heap) (d : Int)
    (hd : o.maxDepth = some d) (hd0 : d ≤ 0) (fuel : Nat) (l r : Value)
    (path : List String) (depth : Nat) (st : St) (hdep : 1 ≤ depth) (hfuel : 1 ≤ fuel) :
    traverse o h fuel l r path depth st = .ok st := by
  rcases fuel with _ | fuel
  · omega
  · have hex : depthExceeded o depth = true := by
      unfold depthExceeded
      rw [hd]
      simp only [decide_eq_true_eq]
      omega
    simp only [traverse]
    rw [if_pos hex]

theorem foldl_keyStep_no_err (o : DiffOptions) (lObj rObj : Obj) (path : List String)
    (g : Value → Value → List String → St → TResult)
    (hg : ∀ lv rv q stx m', g lv rv q stx ≠ .err m') :
    ∀ (keys : List String) (acc : TResult) (msg : String),
    (∀ m', acc ≠ .err m') →
    keys.foldl (keyStep o lObj rObj path g) acc ≠ .err msg := by
  intro keys
  induction keys with
  | nil =>
    intro acc msg hacc
    simpa using hacc msg
  | cons k ks ihk =>
    intro acc msg hacc
    rw [List.foldl_cons]
    apply ihk
    intro m'
    rcases acc with stx | m0 | _
    · simp only [keyStep]
      split
      · simp
      · split
        · simp
        · exact hg _ _ _ _ m'
    · exact absurd rfl (hacc m0)
    · simp [keyStep]

/-- With a non-positive finite `maxDepth`, the root call never throws: the
visited set is still empty at the root and every child call is cut by the
depth check before it can reach the cycle check. -/
theorem traverse_no_err_shallow (o : DiffOptions) (h : Heap) (d : Int)
    (hd : o.maxDepth = some d) (hd0 : d ≤ 0) (fuel : Nat) (l r : Value) (st : St)
    (hv : st.visited = []) (msg : String) :
    traverse o h fuel l r [] 0 st ≠ .err msg := by
  rcases fuel with _ | fuel
  · intro hrun
    simp [traverse] at hrun
  · intro hrun
    simp only [traverse] at hrun
    split at hrun
    · cases hrun
    · split at hrun
      · rename_i la ra
        split at hrun
        · cases hrun
        · split at hrun
          · rename_i hvis
            rw [hv] at hvis
            simp at hvis
          · refine foldl_keyStep_no_err o (heapObj h la) (heapObj h ra) [] _ ?_ _ _ msg
              (fun m' hc => by cases hc) hrun
            intro lv rv q stx m'
            rcases fuel with _ | f
            · intro hc
              simp [traverse] at hc
            · rw [traverse_stops_deep o h d hd hd0 (f + 1) _ _ _ _ _ (by omega) (by omega)]
              simp
      · split at hrun
        · split at hrun
          · cases hrun
          · split at hrun
            · cases hrun
            · cases hrun
        · cases hrun

/-- Claim C9 counterexample: with `maxDepth = -1` the root-level comparison
does not happen — two unequal primitives produce no record at all, because
the depth check `0 > -1` already fires at the root. -/
theorem c9_counterexample_negative_depth :
    jsEq (.prim (.num 1)) (.prim (.num 2)) = false ∧
    diffList (objectDiff [] (.prim (.num 1)) (.prim (.num 2)) { maxDepth := some (-1) }) =
      some [] := by
  exact ⟨by decide, by decide⟩

/-- Claim C9 amended: a non-positive `maxDepth` never causes a throw; the
call returns normally.  With `maxDepth = 0` the root comparison and one
level of key `added`/`deleted` records happen (no record's path has more
than one segment); with a negative `maxDepth` the returned list is empty —
not even the root comparison happens. -/
theorem c9_nonpositive_depth (h : Heap) (l r : Value) (o : DiffOptions) (d : Int)
    (hd : o.maxDepth = some d) (hnp : d ≤ 0) :
    ∃ st, objectDiff h l r o = .ok st ∧ (d < 0 → st.diffs = []) ∧
      ∀ rec ∈ st.diffs, rec.path.length ≤ 1 := by
  rcases hres : objectDiff h l r o with st | msg | _
  · refine ⟨st, rfl, ?_, ?_⟩
    · intro hlt
      unfold objectDiff at hres
      split at hres
      · cases hres
        rfl
      · have hex : depthExceeded o 0 = true := by
          unfold depthExceeded
          rw [hd]
          simpa using hlt
        rcases hfl : diffFuel h with _ | f
        · simp [diffFuel] at hfl
        · rw [hfl] at hres
          simp only [traverse] at hres
          rw [if_pos hex] at hres
          cases hres
          rfl
    · intro rec hrec
      unfold objectDiff at hres
      split at hres
      · cases hres
        simp at hrec
      · obtain ⟨_, ext, hext, hinv⟩ := traverse_ok o h _ _ _ _ _ _ _ hres
        rw [hext] at hrec
        have hlen := (hinv rec (by simpa using hrec)).2.1 d hd
        have hlen' : (rec.path.length : Int) ≤ d + 1 := by simpa using hlen
        omega
  · exfalso
    unfold objectDiff at hres
    split at hres
    · cases hres
    · exact traverse_no_err_shallow o h d hd hnp _ _ _ _ rfl msg hres
  · exfalso
    unfold objectDiff at hres
    split at hres
    · cases hres
    · exact traverse_no_fuelOut o h _ _ _ _ _ _
        (by rw [show (⟨[], []⟩ : St).visited = [] from rfl, freeCount_nil_visited]
            simp [diffFuel]) hres

/-- Claim C9 witness: the amended statement at a concrete input with
`maxDepth = 0`. -/
theorem c9_nonpositive_depth_witness :
    ∃ st, objectDiff [[("a", .prim (.num 1))], []] (.ref 0) (.ref 1)
        { maxDepth := some 0 } = .ok st ∧
      ((0 : Int) < 0 → st.diffs = []) ∧ ∀ rec ∈ st.diffs, rec.path.length ≤ 1 :=
  c9_nonpositive_depth _ _ _ _ 0 rfl (le_refl 0)

/-- Claim C10: the visited set fires on any second encounter of a composite
within one call, not only on true cycles: with the same (acyclic) shared
object under two keys, the default `mark` policy emits a `'[Circular]'`
`updated` record at the second path, and the `error` policy throws there. -/
theorem c10_second_encounter_not_only_cycles :
    diffList (objectDiff
        [[("a", .ref 2), ("b", .ref 2)], [("a", .ref 3), ("b", .ref 3)],
         [("x", .prim (.num 1))], [("x", .prim (.num 1))]]
      (.ref 0) (.ref 1) {}) =
      some [.updated ["b"] circularSentinel circularSentinel] ∧
    objectDiff
        [[("a", .ref 2), ("b", .ref 2)], [("a", .ref 3), ("b", .ref 3)],
         [("x", .prim (.num 1))], [("x", .prim (.num 1))]]
      (.ref 0) (.ref 1) { circularRefs := .error } = .err (circularMsg ["b"]) := by
  exact ⟨by decide, by decide⟩

end ObjectDiff
